import Mathlib

/-!
Verification development for the go-fastcli repository (a fast.com speed-test
CLI).  The repository contains two families of programs:

* `src/cmd/go-fastcli/main.go` — the adaptive variant: sequential trials per
  endpoint with statistics helpers (`CalcMean`, `CalcStdDeviation`,
  `CalcMaxValue`, `CalcJitter` and their `LastN` forms), a `FakeReader`
  payload generator, and an adaptive slow/fast regime trial loop.
* `src/main.go`, `src/unnamed/part_000`, `src/unnamed/part_001` — the
  channel-based variants: parallel download/upload workers feeding byte
  counts into an aggregator select-loop (`calculateSpeed`, `BytesCounter`,
  the upload first-packet discount via the shared `uploadInitialSent`
  counter, and the `totalTimes` completion accounting).

Numeric model: Go `float64` values are embedded as `ℚ` (exact rational
arithmetic; `math.Sqrt` is embedded as `Real.sqrt` on the rational radicand,
which is the only place `ℝ` is needed).  Go `uint` accumulation (64-bit on
the platforms this program targets) is embedded as `ℕ` with an explicit
`% 2 ^ 64`.  Go functions that `panic` are embedded as `Option`-valued
functions returning `none` exactly on the panicking inputs.
-/

set_option maxRecDepth 4000

namespace FastCli

/-! ### Statistics helpers, from `src/cmd/go-fastcli/main.go` -/

/-- Go `CalcMean` (lines 63-69): `total := Σ nums; return total / len(nums)`. -/
def CalcMean (nums : List ℚ) : ℚ :=
  (nums.foldl (fun total num => total + num) 0) / nums.length

/-- Go `CalcMeanOfLastN` (lines 71-81).  `none` models the three `panic`
branches; otherwise `CalcMean(nums[len(nums)-n:])`. -/
def CalcMeanOfLastN (nums : List ℚ) (n : ℤ) : Option ℚ :=
  if (nums.length : ℤ) < n then none
  else if n ≤ 0 then none
  else if n > (nums.length : ℤ) then none
  else some (CalcMean (nums.drop (nums.length - n.toNat)))

/-- The radicand of Go `CalcStdDeviation` (lines 83-90): the running total
`Σ (num - mean)²` divided by `len(nums)` (population variance, divide by N).
Split out so that the rational part stays computable. -/
def CalcVariance (nums : List ℚ) : ℚ :=
  (nums.foldl (fun total num => total + (num - CalcMean nums) ^ 2) 0) / nums.length

/-- Go `CalcStdDeviation` (lines 83-90): `math.Sqrt(total / len(nums))`. -/
noncomputable def CalcStdDeviation (nums : List ℚ) : ℝ :=
  Real.sqrt (CalcVariance nums)

/-- Go `CalcStdDeviationLastN` (lines 92-102), with `none` for the `panic`
branches. -/
noncomputable def CalcStdDeviationLastN (nums : List ℚ) (n : ℤ) : Option ℝ :=
  if (nums.length : ℤ) < n then none
  else if n ≤ 0 then none
  else if n > (nums.length : ℤ) then none
  else some (CalcStdDeviation (nums.drop (nums.length - n.toNat)))

/-- Go `CalcMaxValue` (lines 104-112): `var max float64` starts at 0, then
`if num > max { max = num }` over the list. -/
def CalcMaxValue (nums : List ℚ) : ℚ :=
  nums.foldl (fun mx num => if num > mx then num else mx) 0

/-- Go `CalcMaxValueLastN` (lines 114-124), with `none` for the `panic`
branches. -/
def CalcMaxValueLastN (nums : List ℚ) (n : ℤ) : Option ℚ :=
  if (nums.length : ℤ) < n then none
  else if n ≤ 0 then none
  else if n > (nums.length : ℤ) then none
  else some (CalcMaxValue (nums.drop (nums.length - n.toNat)))

/-- Go `CalcJitter` (lines 126-136): `panic` (= `none`) on fewer than two
samples, otherwise the mean absolute difference of consecutive samples,
`Σ |nums[i] - nums[i-1]| / (len(nums) - 1)`. -/
def CalcJitter (nums : List ℚ) : Option ℚ :=
  if nums.length < 2 then none
  else some ((List.zipWith (fun a b => |b - a|) nums nums.tail).sum /
    ((nums.length : ℚ) - 1))

/-! ### The upload payload readers (read-mode byte-stream counters) -/

/-- Go `FakeReader` from `src/cmd/go-fastcli/main.go` (lines 46-49):
`ReadIndex`, `MaxIndex` are `int64`. -/
structure FakeReader where
  ReadIndex : ℤ
  MaxIndex : ℤ
deriving DecidableEq

/-- Go `FakeReader.Read` (lines 51-61): if `ReadIndex >= MaxIndex` return
`(0, io.EOF)`; otherwise deliver the whole buffer (`n = len(p)`) and advance
`ReadIndex` by `n`.  Result: `((bytes delivered, reached EOF), new state)`. -/
def FakeReader.read (c : FakeReader) (plen : ℕ) : (ℕ × Bool) × FakeReader :=
  if c.MaxIndex ≤ c.ReadIndex then ((0, true), c)
  else ((plen, false), ⟨c.ReadIndex + plen, c.MaxIndex⟩)

/-- Drive `FakeReader.read` with a sequence of caller buffer sizes, the way
`http.Client` drains the request body: stop at the first EOF.  Returns the
total number of bytes delivered together with the final reader state. -/
def runFakeReads (c : FakeReader) : List ℕ → ℕ × FakeReader
  | [] => (0, c)
  | plen :: rest =>
    let r := c.read plen
    if r.1.2 then (0, c)
    else
      let t := runFakeReads r.2 rest
      (r.1.1 + t.1, t.2)

/-- Go `BytesCounter` from `src/unnamed/part_001` (lines 85-89): the
read-mode counter used by upload workers (`SpeedChannel`, `ReadIndex`,
`MaxIndex`). -/
structure BytesCounter where
  ReadIndex : ℤ
  MaxIndex : ℤ
deriving DecidableEq

/-- Go `BytesCounter.Read` (lines 96-110): on `ReadIndex >= MaxIndex` return
`(0, io.EOF)` without touching the channel; otherwise deliver `len(p)`
bytes, advance the index and emit one sample `n` on the speed channel.
Result: `((bytes delivered, reached EOF, samples emitted), new state)`. -/
def BytesCounter.read (c : BytesCounter) (plen : ℕ) :
    (ℕ × Bool × List ℕ) × BytesCounter :=
  if c.MaxIndex ≤ c.ReadIndex then ((0, true, []), c)
  else ((plen, false, [plen]), ⟨c.ReadIndex + plen, c.MaxIndex⟩)

/-! ### Basic facts about the helpers -/

theorem foldl_add_eq_sum (l : List ℚ) (a : ℚ) :
    l.foldl (fun total num => total + num) a = a + l.sum := by
  induction l generalizing a with
  | nil => simp
  | cons x xs ih => simp [ih, add_assoc]

theorem CalcMean_eq (nums : List ℚ) : CalcMean nums = nums.sum / nums.length := by
  simp [CalcMean, foldl_add_eq_sum]

theorem CalcMean_replicate (n : ℕ) (c : ℚ) (hn : n ≠ 0) :
    CalcMean (List.replicate n c) = c := by
  rw [CalcMean_eq]
  simp [List.sum_replicate, mul_comm]
  rw [mul_div_assoc, div_self, mul_one]
  exact_mod_cast hn

theorem foldl_add_sq_eq (nums : List ℚ) (m : ℚ) (a : ℚ) :
    nums.foldl (fun total num => total + (num - m) ^ 2) a
      = a + (nums.map (fun num => (num - m) ^ 2)).sum := by
  induction nums generalizing a with
  | nil => simp
  | cons x xs ih => simp [ih, add_assoc]

theorem CalcVariance_eq (nums : List ℚ) :
    CalcVariance nums
      = (nums.map (fun num => (num - CalcMean nums) ^ 2)).sum / nums.length := by
  simp [CalcVariance, foldl_add_sq_eq]

theorem CalcVariance_nonneg (nums : List ℚ) : 0 ≤ CalcVariance nums := by
  rw [CalcVariance_eq]
  apply div_nonneg
  · apply List.sum_nonneg
    intro x hx
    rcases List.mem_map.1 hx with ⟨y, _, rfl⟩
    positivity
  · exact_mod_cast Nat.zero_le _

theorem CalcVariance_replicate (n : ℕ) (c : ℚ) :
    CalcVariance (List.replicate n c) = 0 := by
  rcases Nat.eq_zero_or_pos n with h | h
  · subst h; simp [CalcVariance, CalcMean]
  · rw [CalcVariance_eq, CalcMean_replicate n c h.ne']
    simp

theorem CalcStdDeviation_replicate (n : ℕ) (c : ℚ) :
    CalcStdDeviation (List.replicate n c) = 0 := by
  rw [CalcStdDeviation, CalcVariance_replicate]
  simp

/-! ### The adaptive sampling controller
(`src/cmd/go-fastcli/main.go`, `main`, lines 332-381)

The download and upload measurement loops are textually identical (all
`up*` tunables are defined as the corresponding `down*` values, lines
278-285), so one embedding covers both directions.  Network calls
(`GetDownloadSpeed` / `GetUploadSpeed`) are abstracted as an oracle
`speeds : ℕ → ℚ` giving the observed throughput of the k-th trial request
(bytes per second, a nonnegative quantity in the real program). -/

/-- One regime bundle: the loop-mutable variables `downMeasureMB`
(trial payload size in MiB), `downStdLastVars` (convergence window, Go
`int`) and `downStdMax` (convergence threshold multiplier). -/
structure Regime where
  measureMB : ℚ
  stdLastVars : ℤ
  stdMax : ℚ
deriving DecidableEq

/-- The loop constants: the fast-regime bundle installed on escalation and
the cutoff `downMeasureCutoffMB`. -/
structure LoopConfig where
  fast : Regime
  cutoffMB : ℚ

/-- The mutable state of one measurement: collected samples
(`totalDownloads`), the current regime, the `cutOffComplete` flag and the
index of the next oracle call. -/
structure LoopState where
  samples : List ℚ
  reg : Regime
  cutOffComplete : Bool
  next : ℕ
deriving DecidableEq

/-- The Go break condition (line 350):
`len(totalDownloads) >= downStdLastVars &&
 CalcStdDeviationLastN(totalDownloads, downStdLastVars) < 1024*1024*downStdMax`.
Thanks to the short-circuit guard the `LastN` call cannot hit its length
panic; with the window sizes used by `main` (3 and 4) it cannot hit the
`n <= 0` panic either, which is why the `some` branch is total here. -/
def convBreak (samples : List ℚ) (reg : Regime) : Prop :=
  reg.stdLastVars ≤ (samples.length : ℤ) ∧
    ∃ s, CalcStdDeviationLastN samples reg.stdLastVars = some s ∧
      s < 1024 * 1024 * (reg.stdMax : ℝ)

open Classical in
/-- The Go trial loop (lines 339-353 / 365-379), with `fuel` the number of
remaining counted iterations (`downMaxLoop - i`).  The escalation branch
(`i--; continue`) consumes an oracle call but neither appends a sample nor
consumes fuel; the flag flip from `false` to `true` is what makes the
recursion terminate. -/
noncomputable def runLoop (cfg : LoopConfig) (speeds : ℕ → ℚ) :
    ℕ → LoopState → LoopState
  | 0, st => st
  | fuel + 1, st =>
    if h : st.cutOffComplete = false ∧ cfg.cutoffMB * 1024 * 1024 < speeds st.next then
      runLoop cfg speeds (fuel + 1) ⟨st.samples, cfg.fast, true, st.next + 1⟩
    else
      if convBreak (st.samples ++ [speeds st.next]) st.reg then
        ⟨st.samples ++ [speeds st.next], st.reg, st.cutOffComplete, st.next + 1⟩
      else
        runLoop cfg speeds fuel ⟨st.samples ++ [speeds st.next], st.reg, st.cutOffComplete, st.next + 1⟩
termination_by fuel st => 2 * fuel + cond st.cutOffComplete 0 1
decreasing_by
  · rw [h.1]
    simp only [Bool.cond_false, Bool.cond_true]
    omega
  · cases hc : st.cutOffComplete <;>
      simp only [hc, Bool.cond_false, Bool.cond_true] <;> omega

/-- A full measurement for one endpoint and one direction: the loop started
from an empty sample list in the slow regime (lines 334-338 / 360-364). -/
noncomputable def measureRun (cfg : LoopConfig) (slow : Regime) (maxLoop : ℕ)
    (speeds : ℕ → ℚ) : LoopState :=
  runLoop cfg speeds maxLoop ⟨[], slow, false, 0⟩

/-- The window the report is taken from: the last `stdLastVars` samples. -/
def lastWindow (st : LoopState) : List ℚ :=
  st.samples.drop (st.samples.length - st.reg.stdLastVars.toNat)

/-- The reported figure (line 354 / 380):
`CalcMaxValueLastN(totalDownloads, downStdLastVars) / 125000`, `none` if the
helper would panic. -/
def reportedSpeed (st : LoopState) : Option ℚ :=
  (CalcMaxValueLastN st.samples st.reg.stdLastVars).map (fun v => v / 125000)

/-- The slow-regime tunables of `main` (lines 263, 270, 274). -/
def downSlowRegime : Regime := ⟨2, 3, 0.2⟩

/-- The fast-regime tunables of `main` (lines 264, 271, 275). -/
def downFastRegime : Regime := ⟨10, 4, 5.0⟩

/-- The loop configuration of `main`: fast regime plus the cutoff
`downMeasureCutoffMB = 2` (line 267). -/
def downConfig : LoopConfig := ⟨downFastRegime, 2⟩

/-- The iteration ceiling of `main`, `downMaxLoop = 100` (line 260). -/
def downMaxLoop : ℕ := 100

/-! ### The concurrent aggregator
(`src/unnamed/part_001` `main` lines 292-378, `src/unnamed/part_000` and
`src/main.go` analogous) -/

/-- Go `calculateSpeed` (`src/unnamed/part_001` lines 48-50):
`totalDl / elapsedSeconds / 125000`. -/
def calculateSpeed (totalDl : ℚ) (elapsedSeconds : ℚ) : ℚ :=
  totalDl / elapsedSeconds / 125000

/-- One Go `uint` addition (64-bit): `totalDl += c`. -/
def uintAdd (a c : ℕ) : ℕ := (a + c) % 2 ^ 64

/-- The aggregator's running total over a sequence of byte-count samples:
`totalDl += c` for each sample received on the speed channel. -/
def totalDlAccum (samples : List ℕ) : ℕ := samples.foldl uintAdd 0

/-- The throughput the aggregator computes after consuming `samples`:
`calculateSpeed(float64(totalDl), startTime)` with `elapsedSeconds` the
elapsed wall-clock time. -/
def aggregatorSpeed (samples : List ℕ) (elapsedSeconds : ℚ) : ℚ :=
  calculateSpeed (totalDlAccum samples) elapsedSeconds

/-- The events the aggregator's select loop can observe, in the linearized
order it observes them: a byte-count sample from the speed channel, a ping
sample, a completion signal from `AnnounceDeath`, and — for upload tests —
a worker's unsynchronized `*uploadinit--` at the start of a request cycle
(`src/unnamed/part_001` line 184). -/
inductive AggEvent where
  | speed (c : ℕ)
  | decr
  | ping (p : ℚ)
  | done
deriving DecidableEq

/-- Whether an event is a completion signal. -/
def AggEvent.isDone : AggEvent → Bool
  | .done => true
  | _ => false

/-- The aggregator loop's mutable state (`src/unnamed/part_001` lines
296-329): `totalTimes` (outstanding workers, Go `int`),
`uploadInitialSent`, the running byte total and the collected ping
samples. -/
structure AggState where
  totalTimes : ℤ
  uploadInitialSent : ℤ
  totalDl : ℕ
  totalPing : List ℚ
deriving DecidableEq

/-- One step of the select loop body (`src/unnamed/part_001` lines 333-374):
a download-test sample is always accumulated; an upload-test sample is
accumulated only when `uploadInitialSent > totalTimes` and otherwise
suppressed with `uploadInitialSent++`; `decr` is the worker-side
`*uploadinit--`; `done` decrements `totalTimes`. -/
def aggStep (isUpload : Bool) (s : AggState) : AggEvent → AggState
  | .speed c =>
    if isUpload then
      if s.uploadInitialSent > s.totalTimes then
        ⟨s.totalTimes, s.uploadInitialSent, uintAdd s.totalDl c, s.totalPing⟩
      else
        ⟨s.totalTimes, s.uploadInitialSent + 1, s.totalDl, s.totalPing⟩
    else ⟨s.totalTimes, s.uploadInitialSent, uintAdd s.totalDl c, s.totalPing⟩
  | .decr => ⟨s.totalTimes, s.uploadInitialSent - 1, s.totalDl, s.totalPing⟩
  | .ping p => ⟨s.totalTimes, s.uploadInitialSent, s.totalDl, s.totalPing ++ [p]⟩
  | .done => ⟨s.totalTimes - 1, s.uploadInitialSent, s.totalDl, s.totalPing⟩

/-- The wait loop (`outer: for { select { ... } }`): process events in
arrival order; after a completion signal, exit (`break outer`) exactly when
`totalTimes == 0`.  `some` is the state at exit; `none` means the event
sequence ran out with the loop still waiting. -/
def waitLoop (isUpload : Bool) (s : AggState) : List AggEvent → Option AggState
  | [] => none
  | e :: evs =>
    let s' := aggStep isUpload s e
    match e with
    | .done => if s'.totalTimes = 0 then some s' else waitLoop isUpload s' evs
    | _ => waitLoop isUpload s' evs

/-- The event trace of one download worker (`DownloadFile`,
`src/unnamed/part_001` lines 119-152): any number of request cycles, each
streaming some chunks through the counter, followed — on any exit path,
via `defer AnnounceDeath(done)` — by exactly one completion signal. -/
def workerEvents (chunkLists : List (List ℕ)) : List AggEvent :=
  (chunkLists.map (fun l => l.map AggEvent.speed)).flatten ++ [AggEvent.done]

/-- The ping report fold (`src/unnamed/part_001` lines 359-364):
`m := 0; for i, e := range totalPing { if i == 0 || e < m { m = e } }`. -/
def pingMinAux : List ℚ → ℕ → ℚ → ℚ
  | [], _, m => m
  | e :: rest, i, m => pingMinAux rest (i + 1) (if i = 0 ∨ e < m then e else m)

/-- The value printed as `Ping` by the channel variants. -/
def pingMinGo (totalPing : List ℚ) : ℚ := pingMinAux totalPing 0 0

/-- The per-endpoint latency figure printed by the adaptive variant
(`src/cmd/go-fastcli/main.go` lines 308-318): the `CalcMean` of the
nanosecond samples scaled to milliseconds — the mean, not the minimum. -/
def latencyReportMs (latencyNs : List ℚ) : ℚ :=
  CalcMean latencyNs * (1 / 1000000)

/-! ### Unfolding equations and invariants of the trial loop -/

theorem runLoop_zero (cfg : LoopConfig) (speeds : ℕ → ℚ) (st : LoopState) :
    runLoop cfg speeds 0 st = st := by
  rw [runLoop]

theorem runLoop_escalate (cfg : LoopConfig) (speeds : ℕ → ℚ) (fuel : ℕ)
    (st : LoopState) (h1 : st.cutOffComplete = false)
    (h2 : cfg.cutoffMB * 1024 * 1024 < speeds st.next) :
    runLoop cfg speeds (fuel + 1) st
      = runLoop cfg speeds (fuel + 1) ⟨st.samples, cfg.fast, true, st.next + 1⟩ := by
  rw [runLoop]
  rw [dif_pos ⟨h1, h2⟩]

theorem runLoop_break (cfg : LoopConfig) (speeds : ℕ → ℚ) (fuel : ℕ)
    (st : LoopState)
    (h : ¬(st.cutOffComplete = false ∧ cfg.cutoffMB * 1024 * 1024 < speeds st.next))
    (hb : convBreak (st.samples ++ [speeds st.next]) st.reg) :
    runLoop cfg speeds (fuel + 1) st
      = ⟨st.samples ++ [speeds st.next], st.reg, st.cutOffComplete, st.next + 1⟩ := by
  rw [runLoop]
  rw [dif_neg h, if_pos hb]

theorem runLoop_step (cfg : LoopConfig) (speeds : ℕ → ℚ) (fuel : ℕ)
    (st : LoopState)
    (h : ¬(st.cutOffComplete = false ∧ cfg.cutoffMB * 1024 * 1024 < speeds st.next))
    (hb : ¬convBreak (st.samples ++ [speeds st.next]) st.reg) :
    runLoop cfg speeds (fuel + 1) st
      = runLoop cfg speeds fuel
          ⟨st.samples ++ [speeds st.next], st.reg, st.cutOffComplete, st.next + 1⟩ := by
  rw [runLoop]
  rw [dif_neg h, if_neg hb]

/-- Bundled behaviour of the loop once `cutOffComplete` is set: the regime
is never changed again, the flag stays set, samples only get appended (and
every appended sample is an oracle value), and the final sample count is at
least `min (initial count + fuel) (final window)`. -/
theorem runLoop_spec_post (cfg : LoopConfig) (speeds : ℕ → ℚ) :
    ∀ (fuel : ℕ) (st : LoopState), st.cutOffComplete = true →
      (runLoop cfg speeds fuel st).reg = st.reg ∧
      (runLoop cfg speeds fuel st).cutOffComplete = true ∧
      (∃ t, (runLoop cfg speeds fuel st).samples = st.samples ++ t ∧
        ∀ x ∈ t, ∃ i, x = speeds i) ∧
      min ((st.samples.length : ℤ) + fuel) (runLoop cfg speeds fuel st).reg.stdLastVars
        ≤ ((runLoop cfg speeds fuel st).samples.length : ℤ) := by
  intro fuel
  induction fuel with
  | zero =>
    intro st h
    rw [runLoop_zero]
    refine ⟨rfl, h, ⟨[], by simp⟩, ?_⟩
    omega
  | succ f ih =>
    intro st h
    have hesc : ¬(st.cutOffComplete = false ∧
        cfg.cutoffMB * 1024 * 1024 < speeds st.next) := by
      simp [h]
    by_cases hb : convBreak (st.samples ++ [speeds st.next]) st.reg
    · rw [runLoop_break cfg speeds f st hesc hb]
      refine ⟨rfl, h, ⟨[speeds st.next], rfl, by simp⟩, ?_⟩
      have hlen := hb.1
      simp only [List.length_append, List.length_singleton] at hlen ⊢
      omega
    · rw [runLoop_step cfg speeds f st hesc hb]
      obtain ⟨hreg, hflag, ⟨t, ht, htor⟩, hlen⟩ :=
        ih ⟨st.samples ++ [speeds st.next], st.reg, st.cutOffComplete, st.next + 1⟩ h
      refine ⟨hreg, hflag, ⟨[speeds st.next] ++ t, by simpa using ht, ?_⟩, ?_⟩
      · intro x hx
        rcases List.mem_append.1 hx with hx | hx
        · exact ⟨st.next, by simpa using hx⟩
        · exact htor x hx
      · simp only [List.length_append, List.length_singleton] at hlen ⊢
        omega

/-- Bundled behaviour of the loop in general: the final regime/flag pair is
either the initial one (no escalation happened) or the fast one with the
flag set (escalation happened, once); samples only get appended and all
appended samples are oracle values; and the final sample count is at least
`min (initial count + fuel) (final window)`. -/
theorem runLoop_spec (cfg : LoopConfig) (speeds : ℕ → ℚ) :
    ∀ (fuel : ℕ) (st : LoopState),
      ((runLoop cfg speeds fuel st).reg = st.reg ∧
        (runLoop cfg speeds fuel st).cutOffComplete = st.cutOffComplete ∨
       (runLoop cfg speeds fuel st).reg = cfg.fast ∧
        (runLoop cfg speeds fuel st).cutOffComplete = true) ∧
      (∃ t, (runLoop cfg speeds fuel st).samples = st.samples ++ t ∧
        ∀ x ∈ t, ∃ i, x = speeds i) ∧
      min ((st.samples.length : ℤ) + fuel) (runLoop cfg speeds fuel st).reg.stdLastVars
        ≤ ((runLoop cfg speeds fuel st).samples.length : ℤ) := by
  intro fuel
  induction fuel with
  | zero =>
    intro st
    rw [runLoop_zero]
    refine ⟨Or.inl ⟨rfl, rfl⟩, ⟨[], by simp⟩, ?_⟩
    omega
  | succ f ih =>
    intro st
    cases hflag : st.cutOffComplete with
    | true =>
      obtain ⟨hreg, hfl, hsam, hlen⟩ := runLoop_spec_post cfg speeds (f + 1) st hflag
      exact ⟨Or.inl ⟨hreg, hfl⟩, hsam, hlen⟩
    | false =>
      by_cases hcut : cfg.cutoffMB * 1024 * 1024 < speeds st.next
      · rw [runLoop_escalate cfg speeds f st hflag hcut]
        obtain ⟨hreg, hfl, hsam, hlen⟩ := runLoop_spec_post cfg speeds (f + 1)
          ⟨st.samples, cfg.fast, true, st.next + 1⟩ rfl
        exact ⟨Or.inr ⟨hreg, hfl⟩, hsam, hlen⟩
      · have hesc : ¬(st.cutOffComplete = false ∧
            cfg.cutoffMB * 1024 * 1024 < speeds st.next) := fun hc => hcut hc.2
        by_cases hb : convBreak (st.samples ++ [speeds st.next]) st.reg
        · rw [runLoop_break cfg speeds f st hesc hb]
          refine ⟨Or.inl ⟨rfl, hflag⟩, ⟨[speeds st.next], rfl, by simp⟩, ?_⟩
          have hlen := hb.1
          simp only [List.length_append, List.length_singleton] at hlen ⊢
          omega
        · rw [runLoop_step cfg speeds f st hesc hb]
          obtain ⟨hor, ⟨t, ht, htor⟩, hlen⟩ :=
            ih ⟨st.samples ++ [speeds st.next], st.reg, st.cutOffComplete, st.next + 1⟩
          refine ⟨?_, ⟨[speeds st.next] ++ t, by simpa using ht, ?_⟩, ?_⟩
          · rcases hor with ⟨h1, h2⟩ | h
            · exact Or.inl ⟨h1, h2.trans hflag⟩
            · exact Or.inr h
          · intro x hx
            rcases List.mem_append.1 hx with hx | hx
            · exact ⟨st.next, by simpa using hx⟩
            · exact htor x hx
          · simp only [List.length_append, List.length_singleton] at hlen ⊢
            omega

/-! ### Characterizations of the max/min folds -/

theorem foldl_max_spec (l : List ℚ) : ∀ a : ℚ,
    (l.foldl (fun mx num => if num > mx then num else mx) a = a ∨
      l.foldl (fun mx num => if num > mx then num else mx) a ∈ l) ∧
    a ≤ l.foldl (fun mx num => if num > mx then num else mx) a ∧
    ∀ x ∈ l, x ≤ l.foldl (fun mx num => if num > mx then num else mx) a := by
  induction l with
  | nil => simp
  | cons y ys ih =>
    intro a
    simp only [List.foldl_cons]
    by_cases hy : y > a
    · rw [if_pos hy]
      obtain ⟨h1, h2, h3⟩ := ih y
      refine ⟨?_, le_trans (le_of_lt hy) h2, ?_⟩
      · rcases h1 with h | h
        · rw [h]; exact Or.inr (List.mem_cons_self y ys)
        · exact Or.inr (List.mem_cons_of_mem y h)
      · intro x hx
        rcases List.mem_cons.1 hx with rfl | hx
        · exact h2
        · exact h3 x hx
    · rw [if_neg hy]
      obtain ⟨h1, h2, h3⟩ := ih a
      refine ⟨?_, h2, ?_⟩
      · rcases h1 with h | h
        · exact Or.inl h
        · exact Or.inr (List.mem_cons_of_mem y h)
      · intro x hx
        rcases List.mem_cons.1 hx with rfl | hx
        · exact le_trans (le_of_not_lt hy) h2
        · exact h3 x hx

theorem CalcMaxValue_nonneg (l : List ℚ) : 0 ≤ CalcMaxValue l :=
  (foldl_max_spec l 0).2.1

theorem CalcMaxValue_ge (l : List ℚ) : ∀ x ∈ l, x ≤ CalcMaxValue l :=
  (foldl_max_spec l 0).2.2

theorem CalcMaxValue_zero_or_mem (l : List ℚ) :
    CalcMaxValue l = 0 ∨ CalcMaxValue l ∈ l :=
  (foldl_max_spec l 0).1

/-- On a nonempty list of nonnegative values, `CalcMaxValue` is the genuine
maximum: a member of the list that bounds every member. -/
theorem CalcMaxValue_is_max (l : List ℚ) (hne : l ≠ [])
    (hnn : ∀ x ∈ l, 0 ≤ x) :
    CalcMaxValue l ∈ l ∧ ∀ x ∈ l, x ≤ CalcMaxValue l := by
  refine ⟨?_, CalcMaxValue_ge l⟩
  rcases CalcMaxValue_zero_or_mem l with h0 | hm
  · rcases l with _ | ⟨y, ys⟩
    · exact absurd rfl hne
    · have hy0 : 0 ≤ y := hnn y (List.mem_cons_self y ys)
      have hy1 : y ≤ CalcMaxValue (y :: ys) :=
        CalcMaxValue_ge (y :: ys) y (List.mem_cons_self y ys)
      rw [h0] at hy1 ⊢
      have : y = 0 := le_antisymm hy1 hy0
      exact this ▸ List.mem_cons_self y ys
  · exact hm

theorem CalcMaxValueLastN_some (nums : List ℚ) (n : ℤ) (h0 : 0 < n)
    (hn : n ≤ (nums.length : ℤ)) :
    CalcMaxValueLastN nums n
      = some (CalcMaxValue (nums.drop (nums.length - n.toNat))) := by
  rw [CalcMaxValueLastN, if_neg (by omega), if_neg (by omega), if_neg (by omega)]

theorem foldl_min_spec (l : List ℚ) : ∀ a : ℚ,
    (l.foldl min a = a ∨ l.foldl min a ∈ l) ∧
    l.foldl min a ≤ a ∧ ∀ x ∈ l, l.foldl min a ≤ x := by
  induction l with
  | nil => simp
  | cons y ys ih =>
    intro a
    simp only [List.foldl_cons]
    rcases le_total a y with hay | hya
    · rw [min_eq_left hay]
      obtain ⟨h1, h2, h3⟩ := ih a
      refine ⟨?_, h2, ?_⟩
      · rcases h1 with h | h
        · exact Or.inl h
        · exact Or.inr (List.mem_cons_of_mem y h)
      · intro x hx
        rcases List.mem_cons.1 hx with rfl | hx
        · exact le_trans h2 hay
        · exact h3 x hx
    · rw [min_eq_right hya]
      obtain ⟨h1, h2, h3⟩ := ih y
      refine ⟨?_, le_trans h2 hya, ?_⟩
      · rcases h1 with h | h
        · rw [h]; exact Or.inr (List.mem_cons_self y ys)
        · exact Or.inr (List.mem_cons_of_mem y h)
      · intro x hx
        rcases List.mem_cons.1 hx with rfl | hx
        · exact h2
        · exact h3 x hx

theorem pingMinAux_of_ne_zero (l : List ℚ) :
    ∀ (i : ℕ) (m : ℚ), i ≠ 0 → pingMinAux l i m = l.foldl min m := by
  induction l with
  | nil => intro i m _; rfl
  | cons e rest ih =>
    intro i m hi
    show pingMinAux rest (i + 1) (if i = 0 ∨ e < m then e else m)
      = (e :: rest).foldl min m
    rw [ih (i + 1) _ (Nat.succ_ne_zero i)]
    simp only [List.foldl_cons]
    congr 1
    by_cases hem : e < m
    · rw [if_pos (Or.inr hem), min_eq_right (le_of_lt hem)]
    · rw [if_neg (by simp [hi, hem]), min_eq_left (le_of_not_lt hem)]

theorem pingMinGo_cons (x : ℚ) (xs : List ℚ) :
    pingMinGo (x :: xs) = xs.foldl min x := by
  show pingMinAux xs 1 (if 0 = 0 ∨ x < 0 then x else 0) = xs.foldl min x
  rw [if_pos (Or.inl rfl)]
  exact pingMinAux_of_ne_zero xs 1 x one_ne_zero

/-! ### The uint accumulator -/

theorem foldl_uintAdd (l : List ℕ) :
    ∀ a : ℕ, a < 2 ^ 64 → l.foldl uintAdd a = (a + l.sum) % 2 ^ 64 := by
  induction l with
  | nil =>
    intro a ha
    simp only [List.foldl_nil, List.sum_nil, Nat.add_zero]
    omega
  | cons x xs ih =>
    intro a ha
    simp only [List.foldl_cons, List.sum_cons]
    rw [show uintAdd a x = (a + x) % 2 ^ 64 from rfl]
    rw [ih ((a + x) % 2 ^ 64) (Nat.mod_lt _ (by norm_num))]
    rw [Nat.mod_add_mod, add_assoc]

theorem totalDlAccum_eq (l : List ℕ) : totalDlAccum l = l.sum % 2 ^ 64 := by
  rw [totalDlAccum, foldl_uintAdd l 0 (by norm_num), Nat.zero_add]

/-! ### Wait-loop accounting -/

theorem aggStep_totalTimes_of_ne_done (b : Bool) (s : AggState) (e : AggEvent)
    (h : e ≠ AggEvent.done) : (aggStep b s e).totalTimes = s.totalTimes := by
  cases e with
  | speed c =>
    cases b with
    | false => rfl
    | true =>
      simp only [aggStep, apply_ite AggState.totalTimes, ite_self]
  | decr => rfl
  | ping p => rfl
  | done => exact absurd rfl h

/-- The wait loop exits exactly at the `totalTimes`-th completion signal:
`isSome` iff the event list carries at least that many `done` events. -/
theorem waitLoop_isSome_iff (b : Bool) :
    ∀ (evs : List AggEvent) (s : AggState), 1 ≤ s.totalTimes →
      ((waitLoop b s evs).isSome ↔
        s.totalTimes ≤ (evs.countP AggEvent.isDone : ℤ)) := by
  intro evs
  induction evs with
  | nil =>
    intro s hs
    simp only [waitLoop, Option.isSome_none, List.countP_nil]
    constructor
    · intro h; exact absurd h (by simp)
    · intro h; omega
  | cons e rest ih =>
    intro s hs
    cases e with
    | done =>
      show ((if (aggStep b s .done).totalTimes = 0 then some (aggStep b s .done)
          else waitLoop b (aggStep b s .done) rest).isSome ↔ _)
      have hstep : (aggStep b s .done).totalTimes = s.totalTimes - 1 := rfl
      have hcount : ((AggEvent.done :: rest).countP AggEvent.isDone : ℤ)
          = (rest.countP AggEvent.isDone : ℤ) + 1 := by
        simp [List.countP_cons, AggEvent.isDone]
      rw [hcount]
      have hrest : (0 : ℤ) ≤ (rest.countP AggEvent.isDone : ℤ) := by
        exact_mod_cast Nat.zero_le _
      by_cases h1 : s.totalTimes = 1
      · rw [if_pos (by omega)]
        constructor
        · intro _; omega
        · intro _; rfl
      · rw [if_neg (by omega)]
        rw [ih (aggStep b s .done) (by omega)]
        rw [hstep]
        constructor <;> intro h <;> omega
    | speed c =>
      show ((waitLoop b (aggStep b s (.speed c)) rest).isSome ↔ _)
      rw [ih _ (by rw [aggStep_totalTimes_of_ne_done b s _ (by simp)]; omega)]
      rw [aggStep_totalTimes_of_ne_done b s _ (by simp)]
      simp [List.countP_cons, AggEvent.isDone]
    | decr =>
      show ((waitLoop b (aggStep b s .decr) rest).isSome ↔ _)
      rw [ih _ (by rw [aggStep_totalTimes_of_ne_done b s _ (by simp)]; omega)]
      rw [aggStep_totalTimes_of_ne_done b s _ (by simp)]
      simp [List.countP_cons, AggEvent.isDone]
    | ping p =>
      show ((waitLoop b (aggStep b s (.ping p)) rest).isSome ↔ _)
      rw [ih _ (by rw [aggStep_totalTimes_of_ne_done b s _ (by simp)]; omega)]
      rw [aggStep_totalTimes_of_ne_done b s _ (by simp)]
      simp [List.countP_cons, AggEvent.isDone]

theorem countP_workerEvents (chunkLists : List (List ℕ)) :
    (workerEvents chunkLists).countP AggEvent.isDone = 1 := by
  rw [workerEvents, List.countP_append]
  have h0 : ((chunkLists.map (fun l => l.map AggEvent.speed)).flatten).countP
      AggEvent.isDone = 0 := by
    rw [List.countP_eq_zero]
    intro a ha
    rw [List.mem_flatten] at ha
    rcases ha with ⟨l, hl, hal⟩
    rcases List.mem_map.1 hl with ⟨cl, _, rfl⟩
    rcases List.mem_map.1 hal with ⟨c, _, rfl⟩
    simp [AggEvent.isDone]
  rw [h0]
  simp [List.countP_cons, AggEvent.isDone]

/-- Helper for the panic-condition analysis of the three `LastN` helpers,
which all guard with the same three `if` tests. -/
theorem lastN_ifs_none {α : Type} (len : ℕ) (n : ℤ) (v : α) :
    ((if (len : ℤ) < n then none
      else if n ≤ 0 then none
      else if n > (len : ℤ) then none else some v) = none)
      ↔ ((len : ℤ) < n ∨ n ≤ 0 ∨ n > (len : ℤ)) := by
  split_ifs with h1 h2 _h3 <;> simp <;> omega

/-! ## The claims -/

/-- C1 counterexample: the aggregator accumulates `totalDl += c` in a Go
`uint`, which wraps at `2 ^ 64`.  For the two samples `[2 ^ 63, 2 ^ 63]`
(sum `B = 2 ^ 64`) over one second the computed throughput is `0`, while
`B / T / 125000` is not `0` — so the claimed exact equality fails for byte
totals at or above the wrap. -/
theorem aggregatorSpeed_wrap_cex :
    aggregatorSpeed [2 ^ 63, 2 ^ 63] 1 = 0 ∧
    ((2 : ℚ) ^ 63 + 2 ^ 63) / 1 / 125000 ≠ 0 := by
  constructor
  · have h : totalDlAccum [2 ^ 63, 2 ^ 63] = 0 := by
      rw [totalDlAccum_eq]
      decide
    rw [aggregatorSpeed, h, calculateSpeed]
    norm_num
  · norm_num

/-- C1 (amended): for every sequence of byte-count samples summing to
`B < 2 ^ 64` (below the `uint` wraparound) over `T` elapsed seconds, the
aggregator's computed throughput is exactly `B / T / 125000` Mbps, and the
value is invariant under any reordering of the samples — hence independent
of how many workers produced them and of arrival interleaving. -/
theorem aggregatorSpeed_exact_below_wrap (samples s2 : List ℕ) (B : ℕ)
    (T : ℚ) (hsum : samples.sum = B) (hB : B < 2 ^ 64)
    (hperm : List.Perm samples s2) :
    aggregatorSpeed samples T = (B : ℚ) / T / 125000 ∧
    aggregatorSpeed s2 T = aggregatorSpeed samples T := by
  have h1 : totalDlAccum samples = B := by
    rw [totalDlAccum_eq, hsum, Nat.mod_eq_of_lt hB]
  have h2 : totalDlAccum s2 = B := by
    rw [totalDlAccum_eq, ← hperm.sum_eq, hsum, Nat.mod_eq_of_lt hB]
  constructor
  · rw [aggregatorSpeed, h1, calculateSpeed]
  · rw [aggregatorSpeed, aggregatorSpeed, h1, h2]

/-- C1 witness: two samples summing to 300 over 2 seconds. -/
theorem aggregatorSpeed_exact_below_wrap_witness :
    aggregatorSpeed [100, 200] 2 = (300 : ℚ) / 2 / 125000 ∧
    aggregatorSpeed [200, 100] 2 = aggregatorSpeed [100, 200] 2 :=
  aggregatorSpeed_exact_below_wrap [100, 200] [200, 100] 300 2 (by decide)
    (by norm_num) (by decide)

/-- C2: the convergence statistic `CalcStdDeviation` is the population
standard deviation (radicand divided by `N`, not `N - 1`; on `[0, 2]` the
population formula gives exactly `1`, where the sample formula would give
`√2`); a window of identical values has statistic exactly `0`; and whenever
a counted trial is appended so that at least `W` samples exist and the
statistic of the last `W` is below the current regime's threshold, the
trial loop stops at once, returning without consuming further trials. -/
theorem convergence_population_stddev_and_immediate_stop :
    (∀ nums : List ℚ, CalcStdDeviation nums
      = Real.sqrt (((nums.map (fun x => (x - CalcMean nums) ^ 2)).sum
          / nums.length : ℚ))) ∧
    CalcStdDeviation [0, 2] = 1 ∧
    (∀ (W : ℕ) (c : ℚ), CalcStdDeviation (List.replicate W c) = 0) ∧
    (∀ (cfg : LoopConfig) (speeds : ℕ → ℚ) (fuel : ℕ) (st : LoopState),
      ¬(st.cutOffComplete = false ∧ cfg.cutoffMB * 1024 * 1024 < speeds st.next) →
      convBreak (st.samples ++ [speeds st.next]) st.reg →
      runLoop cfg speeds (fuel + 1) st
        = ⟨st.samples ++ [speeds st.next], st.reg, st.cutOffComplete, st.next + 1⟩) := by
  refine ⟨?_, ?_, CalcStdDeviation_replicate, ?_⟩
  · intro nums
    rw [CalcStdDeviation, CalcVariance_eq]
  · rw [CalcStdDeviation]
    have hm : CalcMean [(0 : ℚ), 2] = 1 := by
      rw [CalcMean_eq]
      norm_num
    have h : CalcVariance [(0 : ℚ), 2] = 1 := by
      rw [CalcVariance_eq, hm]
      norm_num
    rw [h, Rat.cast_one, Real.sqrt_one]
  · intro cfg speeds fuel st h hb
    exact runLoop_break cfg speeds fuel st h hb

/-- C2 witness: with the slow regime (window 3, threshold 0.2 MiB), a third
identical sample `5` makes the statistic 0 and the loop stops at once. -/
theorem convergence_immediate_stop_witness :
    runLoop downConfig (fun _ => 5) 1 ⟨[5, 5], downSlowRegime, false, 2⟩
      = ⟨[5, 5, 5], downSlowRegime, false, 3⟩ ∧
    CalcStdDeviation (List.replicate 3 (5 : ℚ)) = 0 := by
  have hstd : CalcStdDeviation [(5 : ℚ), 5, 5] = 0 :=
    CalcStdDeviation_replicate 3 5
  have hsome : CalcStdDeviationLastN [(5 : ℚ), 5, 5] 3
      = some (CalcStdDeviation [(5 : ℚ), 5, 5]) := by
    rw [CalcStdDeviationLastN, if_neg (by norm_num), if_neg (by norm_num),
      if_neg (by norm_num)]
    simp
  have hbreak : convBreak [(5 : ℚ), 5, 5] downSlowRegime := by
    refine ⟨by norm_num [downSlowRegime], CalcStdDeviation [(5 : ℚ), 5, 5],
      hsome, ?_⟩
    rw [hstd]
    show (0 : ℝ) < 1024 * 1024 * ((downSlowRegime.stdMax : ℚ) : ℝ)
    norm_num [downSlowRegime]
  exact ⟨convergence_population_stddev_and_immediate_stop.2.2.2 downConfig
      (fun _ => 5) 0 ⟨[5, 5], downSlowRegime, false, 2⟩
      (by intro hcon; norm_num [downConfig] at hcon) hbreak,
    convergence_population_stddev_and_immediate_stop.2.2.1 3 5⟩

/-- C3: for every trial-speed oracle with nonnegative values (throughputs
are nonnegative) and both windows positive and at most the iteration
ceiling, the measurement — whether it stops by convergence or exhausts the
ceiling — reports `some` value (never the panic case `none`), and that
value is `m / 125000` where `m` is the maximum of the last `W` samples:
a member of the final window bounding every member. -/
theorem reported_value_max_of_last_window (cfg : LoopConfig) (slow : Regime)
    (maxLoop : ℕ) (speeds : ℕ → ℚ)
    (hs1 : 0 < slow.stdLastVars) (hs2 : slow.stdLastVars ≤ (maxLoop : ℤ))
    (hf1 : 0 < cfg.fast.stdLastVars) (hf2 : cfg.fast.stdLastVars ≤ (maxLoop : ℤ))
    (hnn : ∀ i, 0 ≤ speeds i) :
    ∃ m, reportedSpeed (measureRun cfg slow maxLoop speeds) = some (m / 125000) ∧
      m ∈ lastWindow (measureRun cfg slow maxLoop speeds) ∧
      ∀ x ∈ lastWindow (measureRun cfg slow maxLoop speeds), x ≤ m := by
  simp only [measureRun]
  obtain ⟨hor, ⟨t, ht, htor⟩, hlen⟩ :=
    runLoop_spec cfg speeds maxLoop ⟨[], slow, false, 0⟩
  have hW1 : 0 < (runLoop cfg speeds maxLoop ⟨[], slow, false, 0⟩).reg.stdLastVars := by
    rcases hor with ⟨h, _⟩ | ⟨h, _⟩ <;> rw [h]
    · exact hs1
    · exact hf1
  have hW2 : (runLoop cfg speeds maxLoop ⟨[], slow, false, 0⟩).reg.stdLastVars
      ≤ (maxLoop : ℤ) := by
    rcases hor with ⟨h, _⟩ | ⟨h, _⟩ <;> rw [h]
    · exact hs2
    · exact hf2
  simp only [List.length_nil, Nat.cast_zero, zero_add] at hlen
  have hWlen : (runLoop cfg speeds maxLoop ⟨[], slow, false, 0⟩).reg.stdLastVars
      ≤ ((runLoop cfg speeds maxLoop ⟨[], slow, false, 0⟩).samples.length : ℤ) := by
    omega
  have hnonneg : ∀ x ∈ (runLoop cfg speeds maxLoop ⟨[], slow, false, 0⟩).samples,
      0 ≤ x := by
    intro x hx
    rw [ht] at hx
    simp only [List.nil_append] at hx
    rcases htor x hx with ⟨i, rfl⟩
    exact hnn i
  have hwin_sub : ∀ x ∈ lastWindow (runLoop cfg speeds maxLoop ⟨[], slow, false, 0⟩),
      x ∈ (runLoop cfg speeds maxLoop ⟨[], slow, false, 0⟩).samples := by
    intro x hx
    exact List.drop_subset _ _ hx
  have hwin_len : (lastWindow (runLoop cfg speeds maxLoop ⟨[], slow, false, 0⟩)).length
      = (runLoop cfg speeds maxLoop ⟨[], slow, false, 0⟩).reg.stdLastVars.toNat := by
    rw [lastWindow, List.length_drop]
    omega
  have hwin_ne : lastWindow (runLoop cfg speeds maxLoop ⟨[], slow, false, 0⟩) ≠ [] := by
    intro hcon
    rw [hcon] at hwin_len
    simp only [List.length_nil] at hwin_len
    omega
  obtain ⟨hmem, hbound⟩ := CalcMaxValue_is_max _ hwin_ne
    (fun x hx => hnonneg x (hwin_sub x hx))
  refine ⟨CalcMaxValue (lastWindow (runLoop cfg speeds maxLoop ⟨[], slow, false, 0⟩)),
    ?_, hmem, hbound⟩
  rw [reportedSpeed, CalcMaxValueLastN_some _ _ hW1 hWlen]
  rfl

/-- C3 witness: a constant zero-speed oracle with the `main` configuration
(slow window 3, fast window 4, ceiling 100). -/
theorem reported_value_max_of_last_window_witness :
    ∃ m, reportedSpeed (measureRun downConfig downSlowRegime downMaxLoop (fun _ => 0))
        = some (m / 125000) ∧
      m ∈ lastWindow (measureRun downConfig downSlowRegime downMaxLoop (fun _ => 0)) ∧
      ∀ x ∈ lastWindow (measureRun downConfig downSlowRegime downMaxLoop (fun _ => 0)),
        x ≤ m :=
  reported_value_max_of_last_window downConfig downSlowRegime downMaxLoop (fun _ => 0)
    (by norm_num [downSlowRegime]) (by norm_num [downSlowRegime, downMaxLoop])
    (by norm_num [downConfig, downFastRegime])
    (by norm_num [downConfig, downFastRegime, downMaxLoop])
    (fun _ => le_refl 0)

/-- C4: escalation happens at most once per measurement.  (a) When the flag
is not yet set and the observed trial exceeds the cutoff, the loop switches
to the fast regime (trial size, window and threshold together), sets the
flag, discards the trial (the sample list is unchanged) and retries the
iteration without consuming fuel (the iteration is not counted).  (b) Once
the flag is set, the observed trial — even one exceeding the cutoff — is
kept: it appears in the final sample list.  (c) Once the flag is set, no
further regime change ever happens and the flag stays set. -/
theorem escalation_at_most_once :
    (∀ (cfg : LoopConfig) (speeds : ℕ → ℚ) (fuel : ℕ) (st : LoopState),
      st.cutOffComplete = false → cfg.cutoffMB * 1024 * 1024 < speeds st.next →
      runLoop cfg speeds (fuel + 1) st
        = runLoop cfg speeds (fuel + 1) ⟨st.samples, cfg.fast, true, st.next + 1⟩) ∧
    (∀ (cfg : LoopConfig) (speeds : ℕ → ℚ) (fuel : ℕ) (st : LoopState),
      st.cutOffComplete = true →
      speeds st.next ∈ (runLoop cfg speeds (fuel + 1) st).samples) ∧
    (∀ (cfg : LoopConfig) (speeds : ℕ → ℚ) (fuel : ℕ) (st : LoopState),
      st.cutOffComplete = true →
      (runLoop cfg speeds fuel st).reg = st.reg ∧
      (runLoop cfg speeds fuel st).cutOffComplete = true) := by
  refine ⟨runLoop_escalate, ?_, ?_⟩
  · intro cfg speeds fuel st h
    have hesc : ¬(st.cutOffComplete = false ∧
        cfg.cutoffMB * 1024 * 1024 < speeds st.next) := by
      simp [h]
    by_cases hb : convBreak (st.samples ++ [speeds st.next]) st.reg
    · rw [runLoop_break cfg speeds fuel st hesc hb]
      simp
    · rw [runLoop_step cfg speeds fuel st hesc hb]
      obtain ⟨_, _, ⟨t, ht, _⟩, _⟩ := runLoop_spec_post cfg speeds fuel
        ⟨st.samples ++ [speeds st.next], st.reg, st.cutOffComplete, st.next + 1⟩ h
      rw [ht]
      simp
  · intro cfg speeds fuel st h
    obtain ⟨h1, h2, _, _⟩ := runLoop_spec_post cfg speeds fuel st h
    exact ⟨h1, h2⟩

/-- C4 witness: the spec's own example, a 3 MiB/s first trial against the
2 MiB/s cutoff: the trial is discarded, the fast regime is installed and
the iteration retried; afterwards a 3 MiB/s trial is kept and the regime
never changes again. -/
theorem escalation_at_most_once_witness :
    runLoop downConfig (fun _ => 3 * 1024 * 1024) 1 ⟨[], downSlowRegime, false, 0⟩
      = runLoop downConfig (fun _ => 3 * 1024 * 1024) 1 ⟨[], downFastRegime, true, 1⟩ ∧
    (3 * 1024 * 1024 : ℚ)
      ∈ (runLoop downConfig (fun _ => 3 * 1024 * 1024) 1
          ⟨[], downFastRegime, true, 1⟩).samples ∧
    (runLoop downConfig (fun _ => 3 * 1024 * 1024) 0
        ⟨[], downFastRegime, true, 1⟩).reg = downFastRegime ∧
    (runLoop downConfig (fun _ => 3 * 1024 * 1024) 0
        ⟨[], downFastRegime, true, 1⟩).cutOffComplete = true :=
  ⟨escalation_at_most_once.1 downConfig (fun _ => 3 * 1024 * 1024) 0
      ⟨[], downSlowRegime, false, 0⟩ rfl (by norm_num [downConfig]),
   escalation_at_most_once.2.1 downConfig (fun _ => 3 * 1024 * 1024) 0
      ⟨[], downFastRegime, true, 1⟩ rfl,
   (escalation_at_most_once.2.2 downConfig (fun _ => 3 * 1024 * 1024) 0
      ⟨[], downFastRegime, true, 1⟩ rfl).1,
   (escalation_at_most_once.2.2 downConfig (fun _ => 3 * 1024 * 1024) 0
      ⟨[], downFastRegime, true, 1⟩ rfl).2⟩

/-- C5 counterexample: one upload worker (`totalTimes = 1`,
`uploadInitialSent = 0`) running one request cycle — the worker first
performs `*uploadinit--`, then its counter emits `[0, 100, 100, 100]`, and
the worker completes.  The aggregator suppresses the first THREE samples
(the counter reaches `-1, 0, 1`, none greater than `totalTimes = 1`) and
accumulates only the last one: the worker contributes 100 bytes, not the
claimed 300. -/
theorem upload_first_sample_suppression_cex :
    waitLoop true ⟨1, 0, 0, []⟩
        [AggEvent.decr, AggEvent.speed 0, AggEvent.speed 100, AggEvent.speed 100,
          AggEvent.speed 100, AggEvent.done]
      = some ⟨0, 2, 100, []⟩ ∧ (100 : ℕ) ≠ 300 := by
  constructor
  · decide
  · decide

/-- C5 (amended): during an upload test the aggregator suppresses a
byte-count sample exactly when the shared counter `uploadInitialSent` does
not exceed the remaining worker count `totalTimes`, incrementing the
counter by one per suppressed sample, while each worker decrements the
counter once at the start of each request cycle; in particular a single
worker emitting `[a, b, c, d]` in one request cycle has its first three
samples suppressed and contributes only `d` bytes. -/
theorem upload_shared_counter_suppression :
    (∀ (s : AggState) (c : ℕ), s.uploadInitialSent ≤ s.totalTimes →
      aggStep true s (AggEvent.speed c)
        = ⟨s.totalTimes, s.uploadInitialSent + 1, s.totalDl, s.totalPing⟩) ∧
    (∀ (s : AggState) (c : ℕ), s.totalTimes < s.uploadInitialSent →
      aggStep true s (AggEvent.speed c)
        = ⟨s.totalTimes, s.uploadInitialSent, uintAdd s.totalDl c, s.totalPing⟩) ∧
    (∀ a b c d : ℕ,
      waitLoop true ⟨1, 0, 0, []⟩
          [AggEvent.decr, AggEvent.speed a, AggEvent.speed b, AggEvent.speed c,
            AggEvent.speed d, AggEvent.done]
        = some ⟨0, 2, d % 2 ^ 64, []⟩) := by
  refine ⟨?_, ?_, ?_⟩
  · intro s c h
    show (if s.uploadInitialSent > s.totalTimes then
        (⟨s.totalTimes, s.uploadInitialSent, uintAdd s.totalDl c, s.totalPing⟩ : AggState)
      else ⟨s.totalTimes, s.uploadInitialSent + 1, s.totalDl, s.totalPing⟩)
      = ⟨s.totalTimes, s.uploadInitialSent + 1, s.totalDl, s.totalPing⟩
    rw [if_neg (not_lt.mpr h)]
  · intro s c h
    show (if s.uploadInitialSent > s.totalTimes then
        (⟨s.totalTimes, s.uploadInitialSent, uintAdd s.totalDl c, s.totalPing⟩ : AggState)
      else ⟨s.totalTimes, s.uploadInitialSent + 1, s.totalDl, s.totalPing⟩)
      = ⟨s.totalTimes, s.uploadInitialSent, uintAdd s.totalDl c, s.totalPing⟩
    rw [if_pos h]
  · intro a b c d
    norm_num [waitLoop, aggStep, uintAdd]

/-- C5 witness for the amended step characterizations. -/
theorem upload_shared_counter_suppression_witness :
    aggStep true ⟨1, 0, 0, []⟩ (AggEvent.speed 7) = ⟨1, 1, 0, []⟩ ∧
    aggStep true ⟨1, 5, 0, []⟩ (AggEvent.speed 7) = ⟨1, 5, uintAdd 0 7, []⟩ :=
  ⟨upload_shared_counter_suppression.1 ⟨1, 0, 0, []⟩ 7 (by norm_num),
   upload_shared_counter_suppression.2.1 ⟨1, 5, 0, []⟩ 7 (by norm_num)⟩

/-- C6 counterexample: the adaptive variant's per-endpoint latency report
is `CalcMean` of the nanosecond samples scaled to milliseconds.  On the
spec's example samples 12.4 ms, 9.8 ms, 15.1 ms it reports the mean
373/30 ≈ 12.433, not the minimum 9.8 — so the claim that every reported
per-endpoint latency is the minimum is false for this variant. -/
theorem latency_report_mean_cex :
    latencyReportMs [12400000, 9800000, 15100000] = 373 / 30 ∧
    (373 / 30 : ℚ) ≠ 9.8 := by
  constructor
  · rw [latencyReportMs, CalcMean_eq]
    norm_num
  · norm_num

/-- C6 (amended): the channel-based variants report a single latency equal
to the minimum over all collected ping samples (9.8 for the spec's example
`[12.4, 9.8, 15.1]`), while the adaptive variant reports per endpoint the
mean of its samples (373/30 ms for the same samples), not the minimum. -/
theorem latency_min_channel_mean_adaptive (x : ℚ) (xs : List ℚ) :
    pingMinGo (x :: xs) ∈ x :: xs ∧
    (∀ y ∈ x :: xs, pingMinGo (x :: xs) ≤ y) ∧
    pingMinGo [12.4, 9.8, 15.1] = 9.8 ∧
    latencyReportMs [12400000, 9800000, 15100000] = 373 / 30 := by
  obtain ⟨h1, h2, h3⟩ := foldl_min_spec xs x
  rw [pingMinGo_cons x xs]
  refine ⟨?_, ?_,
    by rw [pingMinGo_cons]; norm_num [List.foldl_cons, List.foldl_nil, min_def],
    by rw [latencyReportMs, CalcMean_eq]; norm_num⟩
  · rcases h1 with h | h
    · rw [h]; exact List.mem_cons_self x xs
    · exact List.mem_cons_of_mem x h
  · intro y hy
    rcases List.mem_cons.1 hy with rfl | hy
    · exact h2
    · exact h3 y hy

/-- C6 witness at the spec's example samples. -/
theorem latency_min_channel_mean_adaptive_witness :
    pingMinGo [(12.4 : ℚ), 9.8, 15.1] ∈ [(12.4 : ℚ), 9.8, 15.1] ∧
    pingMinGo [(12.4 : ℚ), 9.8, 15.1] ≤ 9.8 :=
  ⟨(latency_min_channel_mean_adaptive 12.4 [9.8, 15.1]).1,
   (latency_min_channel_mean_adaptive 12.4 [9.8, 15.1]).2.1 9.8
     (by norm_num [List.mem_cons])⟩

/-- C7: with `N ≥ 1` workers spawned (`totalTimes = N`), the wait loop
never exits while fewer than `N` completion signals have arrived, exits as
soon as the `N`-th completion signal is processed, and every worker's event
trace carries exactly one completion signal (the `defer AnnounceDeath`
fires once on every exit path). -/
theorem completion_accounting (b : Bool) (N : ℤ) (evs : List AggEvent)
    (s : AggState) (hN : s.totalTimes = N) (h1 : 1 ≤ N) :
    (((evs.countP AggEvent.isDone : ℤ) < N → waitLoop b s evs = none) ∧
     (N ≤ (evs.countP AggEvent.isDone : ℤ) → ∃ s', waitLoop b s evs = some s')) ∧
    ∀ chunkLists : List (List ℕ),
      (workerEvents chunkLists).countP AggEvent.isDone = 1 := by
  subst hN
  have hiff := waitLoop_isSome_iff b evs s h1
  refine ⟨⟨?_, ?_⟩, countP_workerEvents⟩
  · intro hlt
    rcases h : waitLoop b s evs with _ | s'
    · rfl
    · have hsome : (waitLoop b s evs).isSome := by rw [h]; rfl
      rw [hiff] at hsome
      omega
  · intro hge
    have hsome : (waitLoop b s evs).isSome := hiff.mpr hge
    rcases h : waitLoop b s evs with _ | s'
    · rw [h] at hsome
      exact absurd hsome (by simp)
    · exact ⟨s', rfl⟩

/-- C7 witness: two workers; one completion does not release the loop, two
do. -/
theorem completion_accounting_witness :
    waitLoop false ⟨2, 0, 0, []⟩ [AggEvent.done] = none ∧
    ∃ s', waitLoop false ⟨2, 0, 0, []⟩ [AggEvent.done, AggEvent.done] = some s' :=
  ⟨(completion_accounting false 2 [AggEvent.done] ⟨2, 0, 0, []⟩ rfl
      (by norm_num)).1.1 (by decide),
   (completion_accounting false 2 [AggEvent.done, AggEvent.done] ⟨2, 0, 0, []⟩ rfl
      (by norm_num)).1.2 (by decide)⟩

/-- C8: each `LastN` helper (mean, standard deviation, maximum) panics —
returns `none` — exactly when called with fewer samples than the requested
window, a window `n ≤ 0`, or `n` larger than the sample count; `CalcJitter`
panics exactly on fewer than two samples. -/
theorem lastN_and_jitter_panic_conditions :
    (∀ (nums : List ℚ) (n : ℤ),
      (CalcMeanOfLastN nums n = none ↔
        ((nums.length : ℤ) < n ∨ n ≤ 0 ∨ n > (nums.length : ℤ))) ∧
      (CalcStdDeviationLastN nums n = none ↔
        ((nums.length : ℤ) < n ∨ n ≤ 0 ∨ n > (nums.length : ℤ))) ∧
      (CalcMaxValueLastN nums n = none ↔
        ((nums.length : ℤ) < n ∨ n ≤ 0 ∨ n > (nums.length : ℤ)))) ∧
    ∀ nums : List ℚ, CalcJitter nums = none ↔ nums.length < 2 := by
  constructor
  · intro nums n
    refine ⟨?_, ?_, ?_⟩
    · rw [CalcMeanOfLastN]
      exact lastN_ifs_none nums.length n _
    · rw [CalcStdDeviationLastN]
      exact lastN_ifs_none nums.length n _
    · rw [CalcMaxValueLastN]
      exact lastN_ifs_none nums.length n _
  · intro nums
    rw [CalcJitter]
    split_ifs with h <;> simp [h]

/-- C9 counterexample: a read-mode counter with `maxBytes = 10` drained
with 8-byte buffers delivers 16 bytes — the total exceeds the configured
payload size, refuting "equals exactly the configured payload size (never
more)". -/
theorem reader_overshoot_cex :
    (runFakeReads ⟨0, 10⟩ [8, 8, 8]).1 = 16 ∧
    (10 : ℕ) < (runFakeReads ⟨0, 10⟩ [8, 8, 8]).1 := by
  constructor
  · decide
  · decide

/-- C9 (amended): once `bytesDelivered >= maxBytes` both read-mode counters
return end-of-stream without delivering bytes or emitting samples; the
total delivered equals the index advance; and for every sequence of caller
buffer sizes bounded by `bmax` the final index stays below
`maxBytes + bmax` — the trial is bounded by the payload size plus strictly
less than one buffer, with exact equality only when the buffer sizes tile
the payload.  Moreover a drained run either consumed every buffer in full
or stopped only at an index at or past `maxBytes`. -/
theorem reader_eof_and_overshoot_bound :
    (∀ (c : FakeReader) (plen : ℕ), c.MaxIndex ≤ c.ReadIndex →
      c.read plen = ((0, true), c)) ∧
    (∀ (bc : BytesCounter) (plen : ℕ), bc.MaxIndex ≤ bc.ReadIndex →
      bc.read plen = ((0, true, []), bc)) ∧
    (∀ (c : FakeReader) (bufs : List ℕ),
      (runFakeReads c bufs).2.ReadIndex - c.ReadIndex
        = ((runFakeReads c bufs).1 : ℤ) ∧
      (runFakeReads c bufs).2.MaxIndex = c.MaxIndex) ∧
    (∀ (c : FakeReader) (bufs : List ℕ) (bmax : ℤ),
      (∀ p ∈ bufs, (p : ℤ) ≤ bmax) → c.ReadIndex < c.MaxIndex + bmax →
      (runFakeReads c bufs).2.ReadIndex < c.MaxIndex + bmax) ∧
    (∀ (c : FakeReader) (bufs : List ℕ),
      (runFakeReads c bufs).1 = bufs.sum ∨
      c.MaxIndex ≤ (runFakeReads c bufs).2.ReadIndex) := by
  refine ⟨?_, ?_, ?_, ?_, ?_⟩
  · intro c plen h
    rw [FakeReader.read, if_pos h]
  · intro bc plen h
    rw [BytesCounter.read, if_pos h]
  · intro c bufs
    induction bufs generalizing c with
    | nil => simp [runFakeReads]
    | cons p ps ih =>
      rw [runFakeReads]
      by_cases h : c.MaxIndex ≤ c.ReadIndex
      · rw [FakeReader.read, if_pos h]
        simp
      · rw [FakeReader.read, if_neg h]
        simp only
        obtain ⟨ih1, ih2⟩ := ih ⟨c.ReadIndex + (p : ℤ), c.MaxIndex⟩
        constructor
        · push_cast
          push_cast at ih1
          omega
        · exact ih2
  · intro c bufs bmax
    induction bufs generalizing c with
    | nil =>
      intro _ hlt
      simpa [runFakeReads] using hlt
    | cons p ps ih =>
      intro hb hlt
      by_cases h : c.MaxIndex ≤ c.ReadIndex
      · simp only [runFakeReads, FakeReader.read, if_pos h]
        simpa using hlt
      · simp only [runFakeReads, FakeReader.read, if_neg h]
        have hp : (p : ℤ) ≤ bmax := hb p (List.mem_cons_self p ps)
        have hb' : ∀ q ∈ ps, (q : ℤ) ≤ bmax := fun q hq =>
          hb q (List.mem_cons_of_mem p hq)
        have hlt' : (⟨c.ReadIndex + (p : ℤ), c.MaxIndex⟩ : FakeReader).ReadIndex
            < (⟨c.ReadIndex + (p : ℤ), c.MaxIndex⟩ : FakeReader).MaxIndex + bmax := by
          simp only
          omega
        simpa using ih ⟨c.ReadIndex + (p : ℤ), c.MaxIndex⟩ hb' hlt'
  · intro c bufs
    induction bufs generalizing c with
    | nil => simp [runFakeReads]
    | cons p ps ih =>
      rw [runFakeReads]
      by_cases h : c.MaxIndex ≤ c.ReadIndex
      · rw [FakeReader.read, if_pos h]
        simp only
        exact Or.inr h
      · rw [FakeReader.read, if_neg h]
        simp only
        rcases ih ⟨c.ReadIndex + (p : ℤ), c.MaxIndex⟩ with h1 | h1
        · left
          simp [h1]
        · right
          exact h1

/-- C9 witness: the concrete run with `maxBytes = 10` and 8-byte buffers. -/
theorem reader_eof_and_overshoot_bound_witness :
    FakeReader.read ⟨10, 10⟩ 8 = ((0, true), ⟨10, 10⟩) ∧
    BytesCounter.read ⟨10, 10⟩ 8 = ((0, true, []), ⟨10, 10⟩) ∧
    (runFakeReads ⟨0, 10⟩ [8, 8, 8]).2.ReadIndex < 10 + 8 :=
  ⟨reader_eof_and_overshoot_bound.1 ⟨10, 10⟩ 8 (by norm_num),
   reader_eof_and_overshoot_bound.2.1 ⟨10, 10⟩ 8 (by norm_num),
   reader_eof_and_overshoot_bound.2.2.2.1 ⟨0, 10⟩ [8, 8, 8] 8
     (by intro p hp; fin_cases hp <;> norm_num) (by norm_num)⟩

/-- C10: `CalcMaxValue` starts its running maximum at zero, so it computes
`max(0, elements)`: it is nonnegative, bounds every element, is either `0`
or an element of the list, returns `0` on the empty list, and returns `0`
on any list whose elements are all negative. -/
theorem calcMaxValue_clamps_at_zero (nums : List ℚ) :
    CalcMaxValue ([] : List ℚ) = 0 ∧
    0 ≤ CalcMaxValue nums ∧
    (∀ x ∈ nums, x ≤ CalcMaxValue nums) ∧
    (CalcMaxValue nums = 0 ∨ CalcMaxValue nums ∈ nums) ∧
    ((∀ x ∈ nums, x < 0) → CalcMaxValue nums = 0) := by
  refine ⟨rfl, CalcMaxValue_nonneg nums, CalcMaxValue_ge nums,
    CalcMaxValue_zero_or_mem nums, ?_⟩
  intro hneg
  rcases CalcMaxValue_zero_or_mem nums with h | h
  · exact h
  · exact absurd (CalcMaxValue_nonneg nums) (not_le.mpr (hneg _ h))

/-- C10 witness: an all-negative list is clamped to zero. -/
theorem calcMaxValue_clamps_at_zero_witness :
    CalcMaxValue [(-3 : ℚ), -1] = 0 ∧ 0 ≤ CalcMaxValue [(-3 : ℚ), -1] :=
  ⟨(calcMaxValue_clamps_at_zero [(-3 : ℚ), -1]).2.2.2.2
      (by intro x hx; fin_cases hx <;> norm_num),
   (calcMaxValue_clamps_at_zero [(-3 : ℚ), -1]).2.1⟩

end FastCli
